import Mathlib

/-!
Verification of the tile-draw substitution-tiling core (src/src/tiling.rs,
src/src/main.rs, src/src/tiling_editor_ui.rs) against its specification.

Geometry is embedded over the rationals: every coordinate the claims touch
is produced by field operations (add, sub, mul, min, max), so the exact
rational model mirrors the floating-point source up to rounding, which no
claim is about.  The affine-transform and rectangle primitives reproduce
the semantics of the external kurbo crate (`Affine`, `Point`, `Vec2`,
`Rect`) that the source uses.
-/

/-- A 2D point, kurbo `Point`. -/
structure Point where
  x : ℚ
  y : ℚ
  deriving DecidableEq, Repr

/-- A 2D vector, kurbo `Vec2`. -/
structure Vec2 where
  x : ℚ
  y : ℚ
  deriving DecidableEq, Repr

/-- Difference of two points, kurbo `Point - Point : Vec2`. -/
def vsub (p q : Point) : Vec2 := ⟨p.x - q.x, p.y - q.y⟩

/-- Squared euclidean length of a vector, kurbo `Vec2::length_squared`. -/
def lengthSq (v : Vec2) : ℚ := v.x * v.x + v.y * v.y

/-- An affine 2D transform, kurbo `Affine([a0, a1, a2, a3, a4, a5])`:
the point map is `(x, y) ↦ (a0*x + a2*y + a4, a1*x + a3*y + a5)`. -/
structure Affine where
  a0 : ℚ
  a1 : ℚ
  a2 : ℚ
  a3 : ℚ
  a4 : ℚ
  a5 : ℚ
  deriving DecidableEq, Repr

/-- Application of an affine transform to a point, kurbo `Affine * Point`. -/
def applyAffine (t : Affine) (p : Point) : Point :=
  ⟨t.a0 * p.x + t.a2 * p.y + t.a4, t.a1 * p.x + t.a3 * p.y + t.a5⟩

/-- Composition of affine transforms, kurbo `Affine * Affine`
(apply the right factor first, then the left). -/
def mulAffine (s o : Affine) : Affine :=
  ⟨s.a0 * o.a0 + s.a2 * o.a1,
   s.a1 * o.a0 + s.a3 * o.a1,
   s.a0 * o.a2 + s.a2 * o.a3,
   s.a1 * o.a2 + s.a3 * o.a3,
   s.a0 * o.a4 + s.a2 * o.a5 + s.a4,
   s.a1 * o.a4 + s.a3 * o.a5 + s.a5⟩

/-- The identity transform, kurbo `Affine::IDENTITY`. -/
def affineIdentity : Affine := ⟨1, 0, 0, 1, 0, 0⟩

/-- Uniform scale, kurbo `Affine::scale`. -/
def affineScale (s : ℚ) : Affine := ⟨s, 0, 0, s, 0, 0⟩

/-- Translation components of a transform as a point,
kurbo `Affine::translation().to_point()`. -/
def translationPoint (t : Affine) : Point := ⟨t.a4, t.a5⟩

/-- Post-translation, kurbo `Affine::then_translate`:
adds the vector to the translation components. -/
def thenTranslate (t : Affine) (v : Vec2) : Affine :=
  { t with a4 := t.a4 + v.x, a5 := t.a5 + v.y }

/-- An axis-aligned rectangle, kurbo `Rect`. -/
structure Rect where
  x0 : ℚ
  y0 : ℚ
  x1 : ℚ
  y1 : ℚ
  deriving DecidableEq, Repr

/-- Width of a rectangle, kurbo `Rect::width` (may be negative). -/
def rectWidth (r : Rect) : ℚ := r.x1 - r.x0

/-- Height of a rectangle, kurbo `Rect::height` (may be negative). -/
def rectHeight (r : Rect) : ℚ := r.y1 - r.y0

/-- Degenerate rectangle at a point,
kurbo `Rect::from_origin_size(p, (0.0, 0.0))`. -/
def pointRect (p : Point) : Rect := ⟨p.x, p.y, p.x, p.y⟩

/-- Smallest rectangle containing a rectangle and a point,
kurbo `Rect::union_pt`. -/
def unionPt (r : Rect) (p : Point) : Rect :=
  ⟨min r.x0 p.x, min r.y0 p.y, max r.x1 p.x, max r.y1 p.y⟩

/-- Symmetric outset of a rectangle, kurbo `Rect::inflate`. -/
def inflateRect (r : Rect) (dx dy : ℚ) : Rect :=
  ⟨r.x0 - dx, r.y0 - dy, r.x1 + dx, r.y1 + dy⟩

/-- Intersection of rectangles, kurbo `Rect::intersect`: coordinate-wise
max/min, with the upper corner clamped so width and height are never
negative. -/
def intersectRect (r other : Rect) : Rect :=
  let x0 := max r.x0 other.x0
  let y0 := max r.y0 other.y0
  let x1 := min r.x1 other.x1
  let y1 := min r.y1 other.y1
  ⟨x0, y0, max x1 x0, max y1 y0⟩

/-- Emptiness of a rectangle, kurbo `Rect::is_empty` (zero area: zero
width or zero height; on `intersectRect` results, whose width and height
are clamped nonnegative, this coincides with `x1 ≤ x0 ∨ y1 ≤ y0`). -/
def isEmptyRect (r : Rect) : Bool :=
  decide (rectWidth r = 0 ∨ rectHeight r = 0)

/-- A tile outline, `Tile` in src/src/tiling.rs. -/
structure Tile where
  corners : List Point
  deriving DecidableEq, Repr

/-- A placed tile instance, `TilePlacement` in src/src/tiling.rs. -/
structure TilePlacement where
  tile_id : Nat
  transform : Affine
  deriving DecidableEq, Repr

/-- A substitution rule, `TilingRule` in src/src/tiling.rs. -/
structure TilingRule where
  tile : Tile
  result : List TilePlacement
  deriving DecidableEq, Repr

/-- A complete rule set, `TilingStep` in src/src/tiling.rs. -/
structure TilingStep where
  rules : List TilingRule
  expansion_factor : ℚ
  deriving DecidableEq, Repr

/-- `DEFAULT_POLYGON_LIMIT` from src/src/tiling.rs line 67. -/
def DEFAULT_POLYGON_LIMIT : Nat := 1000000

/-- Rule lookup `self.rules[i]`.  Rust indexing faults when out of range;
the model totalises with a default empty rule, and every theorem that
depends on the looked-up value carries an in-range hypothesis so it only
speaks about the fault-free executions. -/
def getRule (s : TilingStep) (i : Nat) : TilingRule := s.rules.getD i ⟨⟨[]⟩, []⟩

/-- One placement's children, `TilingStep::expand_tile`
(src/src/tiling.rs lines 70-77): each child of `rules[tile_id].result`
in order, its transform left-composed with the parent's. -/
def expand_tile (s : TilingStep) (placed_tile : TilePlacement) : List TilePlacement :=
  (getRule s placed_tile.tile_id).result.map
    (fun item => { item with transform := mulAffine placed_tile.transform item.transform })

/-- The inner loop of `TilingStep::expand_levels` (src/src/tiling.rs lines
89-96): fold the current generation `a` into the next-generation buffer
`b`, appending each placement's children and, when a limit is given,
breaking as soon as the buffer's length exceeds it. -/
def expandGeneration (s : TilingStep) (max_tiles : Option Nat) :
    List TilePlacement → List TilePlacement → List TilePlacement
  | [], b => b
  | t :: rest, b =>
    let b2 := b ++ expand_tile s t
    match max_tiles with
    | some x => if x < b2.length then b2 else expandGeneration s max_tiles rest b2
    | none => expandGeneration s max_tiles rest b2

/-- The outer loop of `TilingStep::expand_levels` (src/src/tiling.rs lines
88-99): `levels` generations, each built by `expandGeneration` from the
previous one into a fresh buffer (the source's swap-and-clear). -/
def expandLoop (s : TilingStep) (max_tiles : Option Nat) :
    Nat → List TilePlacement → List TilePlacement
  | 0, a => a
  | Nat.succ l, a => expandLoop s max_tiles l (expandGeneration s max_tiles a [])

/-- `TilingStep::expand_levels` (src/src/tiling.rs lines 79-101): run the
generation loop and append the final generation to `output`. -/
def expand_levels (s : TilingStep) (input : List TilePlacement) (levels : Nat)
    (output : List TilePlacement) (max_tiles : Option Nat) : List TilePlacement :=
  output ++ expandLoop s max_tiles levels input

/-- `TilingStep::estimate_bounds` (src/src/tiling.rs lines 103-115): start
from the degenerate rectangle at the transform's translation point, union
in every transformed corner, then inflate by the larger dimension in both
axes. -/
def estimate_bounds (s : TilingStep) (placed_tile : TilePlacement) : Rect :=
  let start := pointRect (translationPoint placed_tile.transform)
  let result := (getRule s placed_tile.tile_id).tile.corners.foldl
    (fun r p => unionPt r (applyAffine placed_tile.transform p)) start
  let max_size := max (rectWidth result) (rectHeight result)
  inflateRect result max_size max_size

/-- The pruning test of `TilingStep::expand_bound` (src/src/tiling.rs lines
129-132): a placement is skipped when the intersection of its estimated
bounds with the supplied bound is empty. -/
def pruneTest (s : TilingStep) (bounds : Rect) (t : TilePlacement) : Bool :=
  isEmptyRect (intersectRect (estimate_bounds s t) bounds)

/-- The inner loop of `TilingStep::expand_bound` (src/src/tiling.rs lines
128-138): like `expandGeneration` but placements failing the bounds test
are skipped (`continue`) before expansion. -/
def expandBoundGeneration (s : TilingStep) (bounds : Rect) (max_tiles : Option Nat) :
    List TilePlacement → List TilePlacement → List TilePlacement
  | [], b => b
  | t :: rest, b =>
    if pruneTest s bounds t then expandBoundGeneration s bounds max_tiles rest b
    else
      let b2 := b ++ expand_tile s t
      match max_tiles with
      | some x => if x < b2.length then b2 else expandBoundGeneration s bounds max_tiles rest b2
      | none => expandBoundGeneration s bounds max_tiles rest b2

/-- The outer loop of `TilingStep::expand_bound` (src/src/tiling.rs lines
127-142). -/
def expandBoundLoop (s : TilingStep) (bounds : Rect) (max_tiles : Option Nat) :
    Nat → List TilePlacement → List TilePlacement
  | 0, a => a
  | Nat.succ l, a => expandBoundLoop s bounds max_tiles l (expandBoundGeneration s bounds max_tiles a [])

/-- `TilingStep::expand_bound` (src/src/tiling.rs lines 117-144). -/
def expand_bound (s : TilingStep) (input : List TilePlacement) (levels : Nat)
    (bounds : Rect) (output : List TilePlacement) (max_tiles : Option Nat) :
    List TilePlacement :=
  output ++ expandBoundLoop s bounds max_tiles levels input

/-- Elements of a vector path: kurbo `PathEl` as used by the emitters
(only moves, lines and closes occur). -/
inductive PathEl where
  | moveTo (p : Point)
  | lineTo (p : Point)
  | closePath
  deriving DecidableEq, Repr

/-- `Tile::add_to_path_t` (src/src/tiling.rs lines 35-44): nothing for an
empty corner list, otherwise move to the first transformed corner, line to
each subsequent one, close. -/
def add_to_path_t (tile : Tile) (out : List PathEl) (transform : Affine) : List PathEl :=
  match tile.corners with
  | [] => out
  | c :: rest =>
    out ++ (PathEl.moveTo (applyAffine transform c) ::
      rest.map (fun p => PathEl.lineTo (applyAffine transform p)) ++ [PathEl.closePath])

/-- `TilingStep::to_bez_path` (src/src/tiling.rs lines 164-171): fold all
placements into one path via `add_to_path_t`. -/
def to_bez_path (s : TilingStep) (tiles : List TilePlacement) : List PathEl :=
  tiles.foldl (fun result t => add_to_path_t (getRule s t.tile_id).tile result t.transform) []

/-- The duplicate emitter `TilingStep::to_bez_path` of src/src/main.rs
(lines 160-175): placements with empty corner lists are skipped; otherwise
move to the first transformed corner, then line to EVERY corner in order
(the first one again included), then line back to the first corner. -/
def main_to_bez_path (s : TilingStep) (tiles : List TilePlacement) : List PathEl :=
  tiles.foldl
    (fun result t =>
      match (getRule s t.tile_id).tile.corners with
      | [] => result
      | c :: rest =>
        result ++ (PathEl.moveTo (applyAffine t.transform c) ::
          ((c :: rest).map (fun p => PathEl.lineTo (applyAffine t.transform p)) ++
            [PathEl.lineTo (applyAffine t.transform c)])))
    []

/-- Validity of the tile ids of a placement list with respect to a rule
set: the referential-integrity contract of the spec (§3, §7). -/
abbrev ValidIds (s : TilingStep) (l : List TilePlacement) : Prop :=
  ∀ p ∈ l, p.tile_id < s.rules.length

/-- Referential integrity of a whole rule set: every child placement of
every rule references an existing rule. -/
abbrev WellFormed (s : TilingStep) : Prop :=
  ∀ r ∈ s.rules, ValidIds s r.result

/-- The largest rule fan-out of a rule set: max over rules of the length
of `result`. -/
def maxFanout (s : TilingStep) : Nat :=
  s.rules.foldr (fun r m => max r.result.length m) 0

/-- Editor selection state, `Selection` in src/src/tiling_editor_ui.rs
(lines 24-29). -/
inductive Selection where
  | noSelection
  | points (shape : Nat) (corners : List Nat)
  | shapes (shapes : List Nat)
  deriving DecidableEq, Repr

/-- `WindowState::update_tile_selection` (src/src/tiling_editor_ui.rs lines
306-333): the shape-click selection update.  Note the shift branch for an
already-contained index keeps `filter(|x| *x == tile)`, i.e. retains
exactly the clicked index. -/
def update_tile_selection (sel : Selection) (tile : Nat) (shift : Bool) : Selection :=
  if !shift then Selection.shapes [tile]
  else
    match sel with
    | Selection.shapes shapes =>
      if tile ∈ shapes then
        let indexes := shapes.filter (fun x => x = tile)
        if indexes.length > 0 then Selection.shapes indexes else Selection.noSelection
      else Selection.shapes (shapes ++ [tile])
    | _ => Selection.shapes [tile]

/-- The corner-click selection update of `WindowState::display_shapes`
(src/src/tiling_editor_ui.rs lines 139-173), for a click on corner `i` of
placement `j` of the current rule. -/
def corner_click_selection (sel : Selection) (j i : Nat) (shift : Bool) : Selection :=
  if !shift then Selection.points j [i]
  else
    match sel with
    | Selection.points shape corners =>
      if shape = j then
        if i ∈ corners then Selection.points j (corners.filter (fun x => x = i))
        else Selection.points j (corners ++ [i])
      else Selection.points j [i]
    | _ => Selection.points j [i]

/-- Outcome of the per-frame current-rule lookup in
`WindowState::tiling_editor_window`. -/
inductive DrawAttempt where
  | nothingDrawn
  | drewRule (r : TilingRule)
  | indexFault
  deriving Repr

/-- The per-frame guard and dereference of
`WindowState::tiling_editor_window` (src/src/tiling_editor_ui.rs lines
422-425): return (draw nothing) unless `(0..=rules.len())` contains
`current_tile`, then dereference `rules[current_tile]` — an out-of-range
dereference is a fault. -/
def editor_frame_rule (rules : List TilingRule) (current_tile : Nat) : DrawAttempt :=
  if ¬ (current_tile ≤ rules.length) then DrawAttempt.nothingDrawn
  else
    match rules.get? current_tile with
    | some r => DrawAttempt.drewRule r
    | none => DrawAttempt.indexFault

/-- `DRAG_START` (src/src/tiling_editor_ui.rs line 102). -/
def DRAG_START : ℚ := 5

/-- `SNAP_DISTANCE` (src/src/tiling_editor_ui.rs line 103): 0.04. -/
def SNAP_DISTANCE : ℚ := 1 / 25

/-- The best-snap-pair search of `WindowState::display_shapes`
(src/src/tiling_editor_ui.rs lines 258-270): over all (target, movable)
pairs in iteration order, keep the pair of least squared distance among
those with squared distance below `SNAP_DISTANCE²`. -/
def best_snap_pair (snap_points movable_points : List Point) : Option (Point × Point) :=
  (snap_points.foldl
    (fun acc t =>
      movable_points.foldl
        (fun acc2 f =>
          let dis := lengthSq (vsub t f)
          if dis < SNAP_DISTANCE * SNAP_DISTANCE ∧ (acc2.1.isNone ∨ dis < acc2.2)
          then (some (t, f), dis) else acc2)
        acc)
    ((none : Option (Point × Point)), (0 : ℚ))).1

/-- The drag-relevant part of the editor's window state
(src/src/tiling_editor_ui.rs lines 31-42) together with the current rule's
placement transforms, which the drag code mutates. -/
structure DragState where
  drag_activated : Bool
  drag_transforms : List Affine
  selection : Selection
  snap : Bool
  drag_start_p : Point
  result_transforms : List Affine
  deriving Repr

/-- The externally supplied data of one dragged frame: pointer position
and shift state (spec §6, editor inputs per frame), the inverse of the
active view transform, and the snap-candidate point sets.  The latter are
the results of `TilingStep::snap_targets` and `TilingStep::rule_points`,
whose code is not part of the repository sources; per the spec (§4.3) the
candidate-point derivation is an external geometry query, so the sets are
modelled as unconstrained frame inputs. -/
structure DragFrameInput where
  pointer : Point
  shift : Bool
  draw_inverse : Affine
  snap_targets : List Point
  movable_points : List Point
  deriving Repr

/-- One iteration of the dragged-frame handler of
`WindowState::display_shapes` (src/src/tiling_editor_ui.rs lines 239-291),
returning the new placement transforms of the current rule and the new
`drag_activated` flag.  The guard mirrors
`resp.dragged() && self.drag_transforms.len() > 0` and the
`Selection::Shapes` match; the activation test
`mouse_movement.length() > DRAG_START` on nonnegative lengths is modelled
by comparing squared lengths. -/
def drag_frame (st : DragState) (inp : DragFrameInput) : List Affine × Bool :=
  if st.drag_transforms.length = 0 then (st.result_transforms, st.drag_activated)
  else
    match st.selection with
    | Selection.shapes shapes =>
      let movement_sq := lengthSq (vsub inp.pointer st.drag_start_p)
      let movement_draw := vsub (applyAffine inp.draw_inverse inp.pointer)
        (applyAffine inp.draw_inverse st.drag_start_p)
      let activated := st.drag_activated || decide (DRAG_START * DRAG_START < movement_sq)
      let ts1 := if activated then
          (shapes.enum.foldl
            (fun acc is =>
              acc.set is.2 (thenTranslate (st.drag_transforms.getD is.1 affineIdentity) movement_draw))
            st.result_transforms)
        else st.result_transforms
      let ts2 := if st.snap && !inp.shift then
          match best_snap_pair inp.snap_targets inp.movable_points with
          | some tf =>
            shapes.foldl
              (fun acc sh => acc.set sh (thenTranslate (acc.getD sh affineIdentity) (vsub tf.1 tf.2)))
              ts1
          | none => ts1
        else ts1
      (ts2, activated)
    | _ => (st.result_transforms, st.drag_activated)

/-- The square-grid sample rule set `SQUARE_GRID` of src/src/main.rs
(lines 235-265): a unit square substituted by four half-scale copies. -/
def squareGrid : TilingStep :=
  { rules := [
      { tile := ⟨[⟨0, 0⟩, ⟨0, 1⟩, ⟨1, 1⟩, ⟨1, 0⟩]⟩,
        result := [
          ⟨0, affineScale (1 / 2)⟩,
          ⟨0, thenTranslate (affineScale (1 / 2)) ⟨1 / 2, 0⟩⟩,
          ⟨0, thenTranslate (affineScale (1 / 2)) ⟨0, 1 / 2⟩⟩,
          ⟨0, thenTranslate (affineScale (1 / 2)) ⟨1 / 2, 1 / 2⟩⟩] }],
    expansion_factor := 2 }

/-- The identity root placement of the square grid. -/
def squareRoot : TilePlacement := ⟨0, affineIdentity⟩

/-- Spec-described single generation step (spec §4.1): for each placement
`P` in order, for each child `C` of `rules[P.tile_id].result` in order,
emit `⟨C.tile_id, P.transform ∘ C.transform⟩`. -/
def spec_generation (s : TilingStep) (g : List TilePlacement) : List TilePlacement :=
  g.flatMap (fun P => (getRule s P.tile_id).result.map
    (fun C => ⟨C.tile_id, mulAffine P.transform C.transform⟩))

/-- Spec-described repeated expansion (spec §4.1): `levels` generation
steps, keeping the final generation only. -/
def spec_expand (s : TilingStep) : Nat → List TilePlacement → List TilePlacement
  | 0, g => g
  | Nat.succ l, g => spec_expand s l (spec_generation s g)

theorem expand_tile_eq_children (s : TilingStep) (t : TilePlacement) :
    expand_tile s t = (getRule s t.tile_id).result.map
      (fun C => ⟨C.tile_id, mulAffine t.transform C.transform⟩) := rfl

theorem expandGeneration_none_eq (s : TilingStep) :
    ∀ (a b : List TilePlacement),
      expandGeneration s none a b = b ++ spec_generation s a := by
  intro a
  induction a with
  | nil => intro b; simp [expandGeneration, spec_generation]
  | cons t rest ih =>
    intro b
    simp only [expandGeneration, ih, spec_generation, List.flatMap_cons, List.append_assoc]
    rfl

theorem expandLoop_none_eq (s : TilingStep) :
    ∀ (levels : Nat) (a : List TilePlacement),
      expandLoop s none levels a = spec_expand s levels a := by
  intro levels
  induction levels with
  | zero => intro a; rfl
  | succ l ih =>
    intro a
    simp only [expandLoop, spec_expand, ih, expandGeneration_none_eq, List.nil_append]

/-- C1: without a placement limit, one generation of `expand_levels`
replaces each placement `P = (t, T)` by, for each child `C` of
`rules[t].result` in order, the placement `⟨C.tile_id, T ∘ C.transform⟩`
(child transform applied first, then the parent's, as the composition
lemma in the second conjunct states), and after `levels` generations the
output is exactly the final generation, with no intermediate generation
accumulated. -/
theorem c1_expand_levels_final_generation (s : TilingStep)
    (input : List TilePlacement) (levels : Nat) :
    expand_levels s input levels [] none = spec_expand s levels input ∧
    (∀ (T C : Affine) (p : Point),
      applyAffine (mulAffine T C) p = applyAffine T (applyAffine C p)) := by
  constructor
  · simp [expand_levels, expandLoop_none_eq]
  · intro T C p
    simp only [applyAffine, mulAffine, Point.mk.injEq]
    constructor <;> ring

theorem expandGeneration_some_cons (s : TilingStep) (x : Nat)
    (t : TilePlacement) (rest b : List TilePlacement) :
    expandGeneration s (some x) (t :: rest) b =
      if x < (b ++ expand_tile s t).length then b ++ expand_tile s t
      else expandGeneration s (some x) rest (b ++ expand_tile s t) := rfl

/-- C5: with a limit `x`, building one generation yields exactly the
unlimited expansion of some prefix of the input, and whenever that prefix
is proper, the emitted generation had already exceeded `x` — emission
halts mid-generation, the function still returns a value, and the result
type carries no error or truncation indication. -/
theorem c5_limit_halts_generation_silently (s : TilingStep) (x : Nat) :
    ∀ (a b : List TilePlacement), ∃ k,
      k ≤ a.length ∧
      expandGeneration s (some x) a b = expandGeneration s none (a.take k) b ∧
      (k < a.length → x < (expandGeneration s (some x) a b).length) := by
  intro a
  induction a with
  | nil =>
    intro b
    exact ⟨0, Nat.le_refl 0, rfl, fun h => absurd h (Nat.not_lt_zero 0)⟩
  | cons t rest ih =>
    intro b
    by_cases hx : x < (b ++ expand_tile s t).length
    · refine ⟨1, by simp, ?_, fun _ => ?_⟩
      · rw [expandGeneration_some_cons, if_pos hx]
        rfl
      · rw [expandGeneration_some_cons, if_pos hx]
        exact hx
    · obtain ⟨k, hk, heq, hlen⟩ := ih (b ++ expand_tile s t)
      refine ⟨k + 1, by simpa using hk, ?_, fun h => ?_⟩
      · rw [expandGeneration_some_cons, if_neg hx, heq]
        rfl
      · rw [expandGeneration_some_cons, if_neg hx]
        exact hlen (by simpa using h)

theorem expand_tile_length (s : TilingStep) (t : TilePlacement) :
    (expand_tile s t).length = (getRule s t.tile_id).result.length := by
  simp [expand_tile]

theorem getRule_mem (s : TilingStep) (i : Nat) (h : i < s.rules.length) :
    getRule s i ∈ s.rules := by
  rw [getRule, List.getD_eq_getElem?_getD, List.getElem?_eq_getElem h]
  exact List.getElem_mem h

theorem foldr_max_fanout (r : TilingRule) :
    ∀ rs : List TilingRule, r ∈ rs →
      r.result.length ≤ rs.foldr (fun q m => max q.result.length m) 0 := by
  intro rs
  induction rs with
  | nil => intro h; cases h
  | cons hd tl ih =>
    intro h
    rcases List.mem_cons.mp h with rfl | hm
    · simp [List.foldr_cons]
    · exact le_trans (ih hm) (by simp [List.foldr_cons])

theorem fanout_le_maxFanout (s : TilingStep) (r : TilingRule) (h : r ∈ s.rules) :
    r.result.length ≤ maxFanout s :=
  foldr_max_fanout r s.rules h

theorem expand_tile_valid (s : TilingStep) (t : TilePlacement)
    (hwf : WellFormed s) (ht : t.tile_id < s.rules.length) :
    ValidIds s (expand_tile s t) := by
  intro p hp
  simp only [expand_tile, List.mem_map] at hp
  obtain ⟨c, hc, hpc⟩ := hp
  have := hwf (getRule s t.tile_id) (getRule_mem s t.tile_id ht) c hc
  rw [← hpc]
  exact this

theorem validIds_append (s : TilingStep) (l1 l2 : List TilePlacement)
    (h1 : ValidIds s l1) (h2 : ValidIds s l2) : ValidIds s (l1 ++ l2) := by
  intro p hp
  rcases List.mem_append.mp hp with h | h
  · exact h1 p h
  · exact h2 p h

theorem expandGeneration_valid (s : TilingStep) (m : Option Nat) (hwf : WellFormed s) :
    ∀ a b, ValidIds s a → ValidIds s b → ValidIds s (expandGeneration s m a b) := by
  intro a
  induction a with
  | nil => intro b _ hb; exact hb
  | cons t rest ih =>
    intro b ha hb
    have ht : ValidIds s (b ++ expand_tile s t) :=
      validIds_append s b _ hb
        (expand_tile_valid s t hwf (ha t (List.mem_cons_self t rest)))
    have harest : ValidIds s rest := fun p hp => ha p (List.mem_cons_of_mem t hp)
    match m with
    | none => exact ih _ harest ht
    | some x =>
      rw [expandGeneration_some_cons]
      by_cases hx : x < (b ++ expand_tile s t).length
      · rw [if_pos hx]; exact ht
      · rw [if_neg hx]; exact ih _ harest ht

theorem expandGeneration_length_bound (s : TilingStep) (x : Nat) :
    ∀ a b, ValidIds s a → b.length ≤ x →
      (expandGeneration s (some x) a b).length ≤ x + maxFanout s := by
  intro a
  induction a with
  | nil =>
    intro b _ hb
    exact le_trans hb (Nat.le_add_right x _)
  | cons t rest ih =>
    intro b ha hb
    have hfan : (expand_tile s t).length ≤ maxFanout s := by
      rw [expand_tile_length]
      exact fanout_le_maxFanout s _ (getRule_mem s _ (ha t (List.mem_cons_self t rest)))
    have harest : ValidIds s rest := fun p hp => ha p (List.mem_cons_of_mem t hp)
    rw [expandGeneration_some_cons]
    by_cases hx : x < (b ++ expand_tile s t).length
    · rw [if_pos hx]
      simp only [List.length_append]
      omega
    · rw [if_neg hx]
      exact ih _ harest (by omega)

theorem expandBoundGeneration_some_cons (s : TilingStep) (bounds : Rect) (x : Nat)
    (t : TilePlacement) (rest b : List TilePlacement) :
    expandBoundGeneration s bounds (some x) (t :: rest) b =
      if pruneTest s bounds t then expandBoundGeneration s bounds (some x) rest b
      else if x < (b ++ expand_tile s t).length then b ++ expand_tile s t
      else expandBoundGeneration s bounds (some x) rest (b ++ expand_tile s t) := rfl

theorem expandBoundGeneration_none_cons (s : TilingStep) (bounds : Rect)
    (t : TilePlacement) (rest b : List TilePlacement) :
    expandBoundGeneration s bounds none (t :: rest) b =
      if pruneTest s bounds t then expandBoundGeneration s bounds none rest b
      else expandBoundGeneration s bounds none rest (b ++ expand_tile s t) := rfl

theorem expandGeneration_none_cons (s : TilingStep)
    (t : TilePlacement) (rest b : List TilePlacement) :
    expandGeneration s none (t :: rest) b =
      expandGeneration s none rest (b ++ expand_tile s t) := rfl

theorem expandBoundGeneration_valid (s : TilingStep) (bounds : Rect) (m : Option Nat)
    (hwf : WellFormed s) :
    ∀ a b, ValidIds s a → ValidIds s b → ValidIds s (expandBoundGeneration s bounds m a b) := by
  intro a
  induction a with
  | nil => intro b _ hb; exact hb
  | cons t rest ih =>
    intro b ha hb
    have ht : ValidIds s (b ++ expand_tile s t) :=
      validIds_append s b _ hb
        (expand_tile_valid s t hwf (ha t (List.mem_cons_self t rest)))
    have harest : ValidIds s rest := fun p hp => ha p (List.mem_cons_of_mem t hp)
    match m with
    | none =>
      rw [expandBoundGeneration_none_cons]
      by_cases hp : pruneTest s bounds t
      · rw [if_pos hp]; exact ih _ harest hb
      · rw [if_neg hp]; exact ih _ harest ht
    | some x =>
      rw [expandBoundGeneration_some_cons]
      by_cases hp : pruneTest s bounds t
      · rw [if_pos hp]; exact ih _ harest hb
      · rw [if_neg hp]
        by_cases hx : x < (b ++ expand_tile s t).length
        · rw [if_pos hx]; exact ht
        · rw [if_neg hx]; exact ih _ harest ht

theorem expandBoundGeneration_length_bound (s : TilingStep) (bounds : Rect) (x : Nat) :
    ∀ a b, ValidIds s a → b.length ≤ x →
      (expandBoundGeneration s bounds (some x) a b).length ≤ x + maxFanout s := by
  intro a
  induction a with
  | nil =>
    intro b _ hb
    exact le_trans hb (Nat.le_add_right x _)
  | cons t rest ih =>
    intro b ha hb
    have hfan : (expand_tile s t).length ≤ maxFanout s := by
      rw [expand_tile_length]
      exact fanout_le_maxFanout s _ (getRule_mem s _ (ha t (List.mem_cons_self t rest)))
    have harest : ValidIds s rest := fun p hp => ha p (List.mem_cons_of_mem t hp)
    rw [expandBoundGeneration_some_cons]
    by_cases hp : pruneTest s bounds t
    · rw [if_pos hp]; exact ih _ harest hb
    · rw [if_neg hp]
      by_cases hx : x < (b ++ expand_tile s t).length
      · rw [if_pos hx]
        simp only [List.length_append]
        omega
      · rw [if_neg hx]; exact ih _ harest (by omega)

/-- C9: with limit `x`, the limit check runs only after a whole placement's
children are appended, so a generation may exceed `x` by at most the
largest rule fan-out: every generation built by the limited inner loops
(plain and bounded) has length at most `x + maxFanout`, and exceeding the
limit only ends the current generation — the outer loops still expand
every remaining requested generation from the truncated list, each again
subject to the same per-generation limit. -/
theorem c9_limit_overshoot_bound_and_continuation (s : TilingStep) (x : Nat)
    (bounds : Rect) (hwf : WellFormed s) :
    (∀ a b, ValidIds s a → b.length ≤ x →
      (expandGeneration s (some x) a b).length ≤ x + maxFanout s ∧
      (expandBoundGeneration s bounds (some x) a b).length ≤ x + maxFanout s) ∧
    (∀ (l : Nat) (a : List TilePlacement),
      expandLoop s (some x) (l + 1) a =
        expandLoop s (some x) l (expandGeneration s (some x) a []) ∧
      expandBoundLoop s bounds (some x) (l + 1) a =
        expandBoundLoop s bounds (some x) l (expandBoundGeneration s bounds (some x) a [])) ∧
    (∀ (l : Nat) (a : List TilePlacement), ValidIds s a → 1 ≤ l →
      (expandLoop s (some x) l a).length ≤ x + maxFanout s ∧
      (expandBoundLoop s bounds (some x) l a).length ≤ x + maxFanout s) := by
  have hvalidnil : ValidIds s [] := fun p hp => absurd hp (List.not_mem_nil p)
  refine ⟨?_, ?_, ?_⟩
  · intro a b ha hb
    exact ⟨expandGeneration_length_bound s x a b ha hb,
      expandBoundGeneration_length_bound s bounds x a b ha hb⟩
  · intro l a
    exact ⟨rfl, rfl⟩
  · intro l
    induction l with
    | zero => intro a _ h1; cases h1
    | succ l ih =>
      intro a ha _
      match l with
      | 0 =>
        exact ⟨expandGeneration_length_bound s x a [] ha (Nat.zero_le x),
          expandBoundGeneration_length_bound s bounds x a [] ha (Nat.zero_le x)⟩
      | Nat.succ l2 =>
        have hg : ValidIds s (expandGeneration s (some x) a []) :=
          expandGeneration_valid s (some x) hwf a [] ha hvalidnil
        have hgb : ValidIds s (expandBoundGeneration s bounds (some x) a []) :=
          expandBoundGeneration_valid s bounds (some x) hwf a [] ha hvalidnil
        exact ⟨(ih _ hg (Nat.succ_le_succ (Nat.zero_le l2))).1,
          (ih _ hgb (Nat.succ_le_succ (Nat.zero_le l2))).2⟩

/-- Witness for C9: the square-grid rule set with limit 2 — the first
generation from the root has 4 placements, exceeding the limit by the
fan-out but bounded by `2 + maxFanout`, and the loop equations hold at a
concrete level count. -/
theorem c9_limit_overshoot_witness :
    (expandGeneration squareGrid (some 2) [squareRoot] []).length ≤ 2 + maxFanout squareGrid ∧
    (expandBoundGeneration squareGrid ⟨-5, -5, 5, 5⟩ (some 2) [squareRoot] []).length ≤
      2 + maxFanout squareGrid :=
  (c9_limit_overshoot_bound_and_continuation squareGrid 2 ⟨-5, -5, 5, 5⟩
      (by decide)).1 [squareRoot] [] (by decide) (by decide)

theorem expandBoundGeneration_sublist (s : TilingStep) (bounds : Rect)
    {a2 a : List TilePlacement} (ha : List.Sublist a2 a) :
    ∀ {b2 b : List TilePlacement}, List.Sublist b2 b →
      List.Sublist (expandBoundGeneration s bounds none a2 b2)
        (expandGeneration s none a b) := by
  induction ha with
  | slnil => intro b2 b hb; exact hb
  | cons t ha ih =>
    intro b2 b hb
    rw [expandGeneration_none_cons]
    exact ih (hb.trans (List.sublist_append_left b (expand_tile s t)))
  | cons₂ t ha ih =>
    intro b2 b hb
    rw [expandGeneration_none_cons, expandBoundGeneration_none_cons]
    by_cases hp : pruneTest s bounds t
    · rw [if_pos hp]
      exact ih (hb.trans (List.sublist_append_left b (expand_tile s t)))
    · rw [if_neg hp]
      exact ih (hb.append (List.Sublist.refl (expand_tile s t)))

theorem expandBoundLoop_sublist (s : TilingStep) (bounds : Rect) :
    ∀ (l : Nat) {a2 a : List TilePlacement}, List.Sublist a2 a →
      List.Sublist (expandBoundLoop s bounds none l a2) (expandLoop s none l a) := by
  intro l
  induction l with
  | zero => intro a2 a ha; exact ha
  | succ l ih =>
    intro a2 a ha
    exact ih (expandBoundGeneration_sublist s bounds ha (List.Sublist.refl []))

/-- C6: with no placement limit, every placement produced by the bounded
expansion `expand_bound` is also produced (same tile id and transform) by
the unbounded expansion `expand_levels` at the same depth from the same
input. -/
theorem c6_expand_bound_subset_of_expand_levels (s : TilingStep)
    (input : List TilePlacement) (levels : Nat) (bounds : Rect) (p : TilePlacement)
    (hp : p ∈ expand_bound s input levels bounds [] none) :
    p ∈ expand_levels s input levels [] none := by
  have hs := expandBoundLoop_sublist s bounds levels (List.Sublist.refl input)
  rw [expand_bound, List.nil_append] at hp
  rw [expand_levels, List.nil_append]
  exact hs.subset hp

theorem c6_pruneTest_root : pruneTest squareGrid ⟨-5, -5, 5, 5⟩ squareRoot = false := by
  norm_num [pruneTest, isEmptyRect, intersectRect, estimate_bounds, getRule, unionPt,
    pointRect, translationPoint, applyAffine, affineIdentity, rectWidth, rectHeight,
    inflateRect, squareGrid, squareRoot]

/-- Witness for C6: in the square grid, the first child of the root
produced by a bounded one-level expansion also appears in the unbounded
one-level expansion. -/
theorem c6_expand_bound_subset_witness :
    TilePlacement.mk 0 (affineScale (1 / 2)) ∈
      expand_levels squareGrid [squareRoot] 1 [] none :=
  c6_expand_bound_subset_of_expand_levels squareGrid [squareRoot] 1 ⟨-5, -5, 5, 5⟩
    ⟨0, affineScale (1 / 2)⟩ (by
      rw [expand_bound, List.nil_append]
      show _ ∈ expandBoundGeneration squareGrid ⟨-5, -5, 5, 5⟩ none [squareRoot] []
      rw [expandBoundGeneration_none_cons,
        if_neg (by rw [c6_pruneTest_root]; exact Bool.false_ne_true)]
      show _ ∈ expand_tile squareGrid squareRoot
      norm_num [expand_tile, getRule, squareGrid, squareRoot, mulAffine, affineIdentity,
        affineScale, thenTranslate])

/-- Spec-described loop for one placement (spec §4.2, claim C2): nothing
for an empty corner list, otherwise move to the first transformed corner,
line to each subsequent transformed corner in order, then close. -/
def spec_loop (s : TilingStep) (t : TilePlacement) : List PathEl :=
  match (getRule s t.tile_id).tile.corners with
  | [] => []
  | c :: rest => PathEl.moveTo (applyAffine t.transform c) ::
      (rest.map (fun p => PathEl.lineTo (applyAffine t.transform p)) ++ [PathEl.closePath])

/-- The loop the main.rs duplicate emitter actually emits per placement:
move to the first transformed corner, line to every corner in order (the
first corner again included), then a closing line to the first corner. -/
def main_loop (s : TilingStep) (t : TilePlacement) : List PathEl :=
  match (getRule s t.tile_id).tile.corners with
  | [] => []
  | c :: rest => PathEl.moveTo (applyAffine t.transform c) ::
      ((c :: rest).map (fun p => PathEl.lineTo (applyAffine t.transform p)) ++
        [PathEl.lineTo (applyAffine t.transform c)])

/-- Recogniser for close elements. -/
def isClosePath : PathEl → Bool
  | PathEl.closePath => true
  | _ => false

theorem add_to_path_t_eq (s : TilingStep) (t : TilePlacement) (out : List PathEl) :
    add_to_path_t (getRule s t.tile_id).tile out t.transform = out ++ spec_loop s t := by
  rw [add_to_path_t, spec_loop]
  cases (getRule s t.tile_id).tile.corners with
  | nil => simp
  | cons c rest => rfl

theorem to_bez_path_eq_flatMap (s : TilingStep) :
    ∀ (tiles : List TilePlacement) (acc : List PathEl),
      tiles.foldl (fun result t => add_to_path_t (getRule s t.tile_id).tile result t.transform)
          acc = acc ++ tiles.flatMap (spec_loop s) := by
  intro tiles
  induction tiles with
  | nil => intro acc; simp
  | cons t rest ih =>
    intro acc
    rw [List.foldl_cons, ih, add_to_path_t_eq, List.flatMap_cons, List.append_assoc]

theorem main_to_bez_path_eq_flatMap (s : TilingStep) :
    ∀ (tiles : List TilePlacement) (acc : List PathEl),
      tiles.foldl
          (fun result t =>
            match (getRule s t.tile_id).tile.corners with
            | [] => result
            | c :: rest =>
              result ++ (PathEl.moveTo (applyAffine t.transform c) ::
                ((c :: rest).map (fun p => PathEl.lineTo (applyAffine t.transform p)) ++
                  [PathEl.lineTo (applyAffine t.transform c)])))
          acc = acc ++ tiles.flatMap (main_loop s) := by
  intro tiles
  induction tiles with
  | nil => intro acc; simp
  | cons t rest ih =>
    intro acc
    rw [List.foldl_cons, ih, List.flatMap_cons, ← List.append_assoc]
    congr 1
    rw [main_loop]
    cases (getRule s t.tile_id).tile.corners with
    | nil => simp
    | cons c r2 => rfl

theorem countP_spec_loop (s : TilingStep) (t : TilePlacement) :
    (spec_loop s t).countP isClosePath =
      (if (getRule s t.tile_id).tile.corners.isEmpty then 0 else 1) := by
  rw [spec_loop]
  cases (getRule s t.tile_id).tile.corners with
  | nil => rfl
  | cons c rest =>
    simp only [List.isEmpty_cons, if_neg Bool.false_ne_true, List.countP_cons,
      List.countP_append, isClosePath]
    have hmap : (rest.map (fun p => PathEl.lineTo (applyAffine t.transform p))).countP
        isClosePath = 0 := by
      rw [List.countP_eq_zero]
      intro e he
      rcases List.mem_map.mp he with ⟨q, _, hq⟩
      rw [← hq]
      simp [isClosePath]
    simp [hmap, isClosePath, List.countP_cons]

theorem countP_main_loop (s : TilingStep) (t : TilePlacement) :
    (main_loop s t).countP isClosePath = 0 := by
  rw [main_loop]
  cases (getRule s t.tile_id).tile.corners with
  | nil => rfl
  | cons c rest =>
    rw [List.countP_eq_zero]
    intro e he
    rcases List.mem_cons.mp he with rfl | he
    · simp [isClosePath]
    rcases List.mem_append.mp he with he | he
    · rcases List.mem_map.mp he with ⟨q, _, hq⟩
      rw [← hq]
      simp [isClosePath]
    · rcases List.mem_singleton.mp he with rfl
      simp [isClosePath]

theorem flatMap_countP_spec (s : TilingStep) :
    ∀ tiles : List TilePlacement,
      (tiles.flatMap (spec_loop s)).countP isClosePath =
        tiles.countP (fun t => !(getRule s t.tile_id).tile.corners.isEmpty) := by
  intro tiles
  induction tiles with
  | nil => rfl
  | cons t rest ih =>
    rw [List.flatMap_cons, List.countP_append, List.countP_cons, ih, countP_spec_loop]
    cases h : (getRule s t.tile_id).tile.corners.isEmpty
    · simp [h]
      omega
    · simp [h]

theorem flatMap_countP_main (s : TilingStep) :
    ∀ tiles : List TilePlacement,
      (tiles.flatMap (main_loop s)).countP isClosePath = 0 := by
  intro tiles
  induction tiles with
  | nil => rfl
  | cons t rest ih =>
    rw [List.flatMap_cons, List.countP_append, ih, countP_main_loop]

/-- C2 (amended): the tiling.rs path emitter `to_bez_path` behaves exactly
as the claim states — per placement whose referenced tile has a non-empty
corner list it emits one loop, built move-to-first-corner, line to each
subsequent transformed corner in order, then an explicit close, so the
loop carries each corner exactly once plus the closing element, and the
number of closed loops equals the number of such placements; but the
duplicate emitter `to_bez_path` of src/src/main.rs instead emits, per such
placement, a move to the first transformed corner followed by a line to
EVERY corner in order — the first corner again included, duplicating that
vertex — and ends with a closing line to the first corner, emitting no
close element at all. -/
theorem c2_amended_emitters (s : TilingStep) (tiles : List TilePlacement) :
    to_bez_path s tiles = tiles.flatMap (spec_loop s) ∧
    (to_bez_path s tiles).countP isClosePath =
      tiles.countP (fun t => !(getRule s t.tile_id).tile.corners.isEmpty) ∧
    main_to_bez_path s tiles = tiles.flatMap (main_loop s) ∧
    (main_to_bez_path s tiles).countP isClosePath = 0 := by
  have h1 : to_bez_path s tiles = tiles.flatMap (spec_loop s) := by
    rw [to_bez_path, to_bez_path_eq_flatMap s tiles [], List.nil_append]
  have h2 : main_to_bez_path s tiles = tiles.flatMap (main_loop s) := by
    rw [main_to_bez_path, main_to_bez_path_eq_flatMap s tiles [], List.nil_append]
  refine ⟨h1, ?_, h2, ?_⟩
  · rw [h1, flatMap_countP_spec]
  · rw [h2, flatMap_countP_main]

/-- Counterexample for C2: on the square grid with a single identity root
placement, the main.rs emitter's output differs from the one combined
path of claim-described loops; it contains no close element, and its
first two elements are a move and a line to the SAME point — the
duplicated first vertex. -/
theorem c2_duplicated_vertex_counterexample :
    main_to_bez_path squareGrid [squareRoot] ≠ [squareRoot].flatMap (spec_loop squareGrid) ∧
    (main_to_bez_path squareGrid [squareRoot]).countP isClosePath = 0 ∧
    (main_to_bez_path squareGrid [squareRoot]).take 2 =
      [PathEl.moveTo ⟨0, 0⟩, PathEl.lineTo ⟨0, 0⟩] := by
  refine ⟨fun h => absurd (congrArg List.length h) (by decide), by decide, ?_⟩
  norm_num [main_to_bez_path, squareGrid, squareRoot, getRule, applyAffine, affineIdentity]

/-- Claim-described bounds estimate (claim C8 as stated): the tight
bounding rectangle of the transformed positions of the tile's corners and
of no other point, inflated by its own largest dimension in both axes;
there is no such rectangle for a tile with no corners. -/
def spec_claim_estimate (s : TilingStep) (t : TilePlacement) : Option Rect :=
  match (getRule s t.tile_id).tile.corners with
  | [] => none
  | c :: rest =>
    let r := rest.foldl (fun r p => unionPt r (applyAffine t.transform p))
      (pointRect (applyAffine t.transform c))
    some (inflateRect r (max (rectWidth r) (rectHeight r)) (max (rectWidth r) (rectHeight r)))

/-- Amended bounds estimate: coordinate-wise description — the tight
bounding rectangle of the transform's translation point TOGETHER WITH the
transformed corners, inflated by its own largest dimension in both axes. -/
def spec_amended_estimate (s : TilingStep) (t : TilePlacement) : Rect :=
  let p0 := translationPoint t.transform
  let ps := (getRule s t.tile_id).tile.corners.map (applyAffine t.transform)
  let r : Rect := ⟨(ps.map Point.x).foldl min p0.x, (ps.map Point.y).foldl min p0.y,
    (ps.map Point.x).foldl max p0.x, (ps.map Point.y).foldl max p0.y⟩
  inflateRect r (max (rectWidth r) (rectHeight r)) (max (rectWidth r) (rectHeight r))

theorem foldl_unionPt_coords :
    ∀ (ps : List Point) (r : Rect),
      ps.foldl unionPt r =
        ⟨(ps.map Point.x).foldl min r.x0, (ps.map Point.y).foldl min r.y0,
         (ps.map Point.x).foldl max r.x1, (ps.map Point.y).foldl max r.y1⟩ := by
  intro ps
  induction ps with
  | nil => intro r; rfl
  | cons p rest ih =>
    intro r
    rw [List.foldl_cons, ih]
    rfl

/-- C8 (amended): the expansion engine's bounds estimate equals the tight
axis-aligned bounding rectangle of the transform's translation point
together with the transformed positions of all tile corners, inflated in
both axes by that rectangle's own largest dimension. -/
theorem c8_amended_estimate_bounds (s : TilingStep) (t : TilePlacement) :
    estimate_bounds s t = spec_amended_estimate s t := by
  rw [estimate_bounds, spec_amended_estimate]
  rw [show (fun (r : Rect) (p : Point) => unionPt r (applyAffine t.transform p)) =
    (fun (r : Rect) (p : Point) => unionPt r ((fun q => applyAffine t.transform q) p)) from rfl]
  rw [← List.foldl_map, foldl_unionPt_coords]
  rfl

/-- Rule set with a single one-corner tile away from the origin, used to
exhibit the translation point's contribution to the bounds estimate. -/
def c8_step : TilingStep := ⟨[⟨⟨[⟨10, 0⟩]⟩, []⟩], 1⟩

/-- The identity placement of that tile. -/
def c8_placement : TilePlacement := ⟨0, affineIdentity⟩

/-- Counterexample for C8: for the identity placement of a one-corner tile
with corner (10, 0), the engine's estimate is the inflation of the
rectangle spanned by the translation point (0, 0) and the corner — not of
the corner's tight bounding rectangle alone, as the claim states. -/
theorem c8_translation_point_counterexample :
    some (estimate_bounds c8_step c8_placement) ≠ spec_claim_estimate c8_step c8_placement ∧
    estimate_bounds c8_step c8_placement = ⟨-10, -10, 20, 10⟩ ∧
    spec_claim_estimate c8_step c8_placement = some ⟨10, 0, 10, 0⟩ := by
  have h1 : estimate_bounds c8_step c8_placement = ⟨-10, -10, 20, 10⟩ := by
    norm_num [estimate_bounds, getRule, pointRect, translationPoint, applyAffine,
      affineIdentity, unionPt, rectWidth, rectHeight, inflateRect, c8_step, c8_placement,
      min_def, max_def]
  have h2 : spec_claim_estimate c8_step c8_placement = some ⟨10, 0, 10, 0⟩ := by
    norm_num [spec_claim_estimate, getRule, pointRect, applyAffine, affineIdentity,
      rectWidth, rectHeight, inflateRect, c8_step, c8_placement, min_def, max_def]
  refine ⟨?_, h1, h2⟩
  rw [h1, h2]
  intro h
  have := congrArg Rect.x0 (Option.some.inj h)
  norm_num at this

theorem intersect_width_zero_of_thin (r b : Rect) (h : r.x1 ≤ max r.x0 b.x0) :
    rectWidth (intersectRect r b) = 0 := by
  rw [intersectRect, rectWidth]
  simp only []
  rw [max_eq_right (le_trans (le_trans (min_le_left r.x1 b.x1) h) (le_refl _)), sub_self]

theorem estimate_bounds_empty_corners (s : TilingStep) (t : TilePlacement)
    (h : (getRule s t.tile_id).tile.corners = []) :
    estimate_bounds s t = pointRect (translationPoint t.transform) := by
  rw [estimate_bounds, h]
  simp [pointRect, rectWidth, rectHeight, inflateRect]

/-- C10: the bounded expansion prunes a placement exactly when the clamped
intersection of its estimated rectangle with the bound has zero width or
zero height — not only when the rectangles are disjoint; a pruned
placement contributes no children to the generation; every placement
whose referenced tile has an empty corner list has the degenerate
single-point estimate at the transform's translation and is pruned for
every bound; and a rectangle that merely touches the bound's edge
(right edge meeting the bound's left edge) is pruned as well. -/
theorem c10_zero_area_intersection_pruned (s : TilingStep) :
    (∀ (bounds : Rect) (t : TilePlacement),
      pruneTest s bounds t = true ↔
        rectWidth (intersectRect (estimate_bounds s t) bounds) = 0 ∨
        rectHeight (intersectRect (estimate_bounds s t) bounds) = 0) ∧
    (∀ (bounds : Rect) (t : TilePlacement),
      (getRule s t.tile_id).tile.corners = [] →
        estimate_bounds s t = pointRect (translationPoint t.transform) ∧
        pruneTest s bounds t = true) ∧
    (∀ (bounds : Rect) (t : TilePlacement) (rest b : List TilePlacement) (m : Option Nat),
      pruneTest s bounds t = true →
        expandBoundGeneration s bounds m (t :: rest) b =
          expandBoundGeneration s bounds m rest b) ∧
    (∀ r bounds : Rect, r.x1 = bounds.x0 → isEmptyRect (intersectRect r bounds) = true) := by
  refine ⟨?_, ?_, ?_, ?_⟩
  · intro bounds t
    rw [pruneTest, isEmptyRect]
    exact decide_eq_true_iff
  · intro bounds t h
    have he := estimate_bounds_empty_corners s t h
    refine ⟨he, ?_⟩
    rw [pruneTest, he, isEmptyRect, decide_eq_true_iff]
    left
    exact intersect_width_zero_of_thin _ bounds (le_max_left _ _)
  · intro bounds t rest b m hp
    match m with
    | none => rw [expandBoundGeneration_none_cons, if_pos hp]
    | some x => rw [expandBoundGeneration_some_cons, if_pos hp]
  · intro r bounds h
    rw [isEmptyRect, decide_eq_true_iff]
    left
    exact intersect_width_zero_of_thin r bounds (h ▸ le_max_right r.x0 bounds.x0)

/-- C3 evaluation: the code's shift-click toggle at the claim's failing
inputs.  After clicking placement 0, shift-clicking placement 1 (selection
[0, 1]), shift-clicking 0 again KEEPS exactly index 0 — the
`filter(|x| *x == tile)` retains the clicked index instead of removing it
— where the claim requires the selection to become [1].  The same slip is
in the corner-toggle branch. -/
theorem c3_shift_click_toggle_evaluation :
    update_tile_selection
        (update_tile_selection (update_tile_selection Selection.noSelection 0 false) 1 true)
        0 true = Selection.shapes [0] ∧
    update_tile_selection (Selection.shapes [0, 1]) 0 true = Selection.shapes [0] ∧
    corner_click_selection (Selection.points 0 [0, 1]) 0 0 true = Selection.points 0 [0] ∧
    Selection.shapes [0] ≠ Selection.shapes [1] := by
  refine ⟨rfl, rfl, rfl, by decide⟩

/-- C7 evaluation: the per-frame guard uses the INCLUSIVE range
`0..=rules.len()`, so `current_tile = rules.len()` passes the check and
the subsequent `rules[current_tile]` dereference is an index-out-of-range
fault; in particular the empty rule set with the default `current_tile = 0`
faults instead of drawing nothing. -/
theorem c7_inclusive_guard_evaluation :
    editor_frame_rule ([] : List TilingRule) 0 = DrawAttempt.indexFault ∧
    ∀ rules : List TilingRule,
      editor_frame_rule rules rules.length = DrawAttempt.indexFault := by
  refine ⟨rfl, ?_⟩
  intro rules
  rw [editor_frame_rule, if_neg (not_not_intro (le_refl rules.length))]
  rw [List.get?_eq_none.mpr (le_refl rules.length)]

/-- C4 (amended): on a dragged frame with a shape selection, (1) when the
drag is not yet activated, the cumulative screen displacement is at or
under the 5-unit threshold, and the snap block does not fire (snap off,
shift held, or no candidate pair within the snap radius), no placement
transform changes and the drag stays unactivated; (2) the activation flag
is exactly "already activated or displacement exceeds the threshold", so
activation is sticky for the remainder of the gesture; (3) the first
frame whose displacement exceeds the threshold applies the full
accumulated displacement at once, from the drag-start snapshots.  The
snap block, however, runs on every dragged frame regardless of
activation, so it can mutate transforms below the threshold (see the
counterexample). -/
theorem c4_amended_drag_activation (st : DragState) (inp : DragFrameInput)
    (shapes : List Nat) (hsel : st.selection = Selection.shapes shapes) :
    ((st.drag_activated = false ∧
        lengthSq (vsub inp.pointer st.drag_start_p) ≤ DRAG_START * DRAG_START ∧
        (st.snap = false ∨ inp.shift = true ∨
          best_snap_pair inp.snap_targets inp.movable_points = none)) →
      drag_frame st inp = (st.result_transforms, false)) ∧
    (st.drag_transforms.length ≠ 0 →
      (drag_frame st inp).2 = (st.drag_activated ||
        decide (DRAG_START * DRAG_START < lengthSq (vsub inp.pointer st.drag_start_p)))) ∧
    (st.drag_transforms.length ≠ 0 →
      DRAG_START * DRAG_START < lengthSq (vsub inp.pointer st.drag_start_p) →
      (st.snap = false ∨ inp.shift = true ∨
        best_snap_pair inp.snap_targets inp.movable_points = none) →
      (drag_frame st inp).1 = shapes.enum.foldl
        (fun acc is => acc.set is.2
          (thenTranslate (st.drag_transforms.getD is.1 affineIdentity)
            (vsub (applyAffine inp.draw_inverse inp.pointer)
              (applyAffine inp.draw_inverse st.drag_start_p)))) st.result_transforms) := by
  refine ⟨?_, ?_, ?_⟩
  · rintro ⟨hact, hle, hsnap⟩
    by_cases hlen : st.drag_transforms.length = 0
    · rw [drag_frame, if_pos hlen, hact]
    · have hdec : decide (DRAG_START * DRAG_START <
          lengthSq (vsub inp.pointer st.drag_start_p)) = false :=
        decide_eq_false (not_lt.mpr hle)
      rw [drag_frame, if_neg hlen, hsel]
      simp only [hdec, hact, Bool.or_false]
      rcases hsnap with h | h | h
      · simp [h]
      · simp [h]
      · simp [h]
  · intro hlen
    rw [drag_frame, if_neg hlen, hsel]
  · intro hlen hgt hsnap
    have hdec : decide (DRAG_START * DRAG_START <
        lengthSq (vsub inp.pointer st.drag_start_p)) = true := decide_eq_true hgt
    rw [drag_frame, if_neg hlen, hsel]
    simp only [hdec, Bool.or_true]
    rcases hsnap with h | h | h
    · simp [h]
    · simp [h]
    · simp [h]

/-- Drag state for the C4 witness: one selected shape, snap disabled,
drag not activated. -/
def c4_wit_state : DragState :=
  ⟨false, [affineIdentity], Selection.shapes [0], false, ⟨0, 0⟩, [affineIdentity]⟩

/-- Frame input for the C4 witness: one screen unit of pointer movement,
no snap candidates. -/
def c4_wit_input : DragFrameInput := ⟨⟨1, 0⟩, false, affineIdentity, [], []⟩

/-- Witness for C4 (amended): a concrete below-threshold dragged frame
with snap disabled leaves the placement transforms untouched and the drag
unactivated. -/
theorem c4_amended_drag_activation_witness :
    drag_frame c4_wit_state c4_wit_input = (c4_wit_state.result_transforms, false) :=
  (c4_amended_drag_activation c4_wit_state c4_wit_input [0] rfl).1
    ⟨rfl, by norm_num [lengthSq, vsub, c4_wit_state, c4_wit_input, DRAG_START],
      Or.inl rfl⟩

/-- Drag state for the C4 counterexample: one selected shape with the
identity transform, snap enabled, drag not activated. -/
def c4_cex_state : DragState :=
  ⟨false, [affineIdentity], Selection.shapes [0], true, ⟨0, 0⟩, [affineIdentity]⟩

/-- Frame input for the C4 counterexample: one screen unit of pointer
movement (below the 5-unit threshold) and a snap-target 1/50 model units
away from a movable point — inside the 1/25 snap radius. -/
def c4_cex_input : DragFrameInput :=
  ⟨⟨1, 0⟩, false, affineIdentity, [⟨1 / 50, 0⟩], [⟨0, 0⟩]⟩

/-- Counterexample for C4: a dragged frame whose cumulative screen
displacement (1 unit) is well under the 5-unit threshold, with the drag
never activated, still mutates a placement transform — the snap block
runs regardless of activation and translates the selection by 1/50 —
while the drag stays unactivated. -/
theorem c4_snap_mutates_below_threshold :
    c4_cex_state.drag_activated = false ∧
    lengthSq (vsub c4_cex_input.pointer c4_cex_state.drag_start_p) ≤
      DRAG_START * DRAG_START ∧
    (drag_frame c4_cex_state c4_cex_input).1 ≠ c4_cex_state.result_transforms ∧
    (drag_frame c4_cex_state c4_cex_input).2 = false := by
  have hdf : drag_frame c4_cex_state c4_cex_input =
      ([⟨1, 0, 0, 1, 1 / 50, 0⟩], false) := by
    norm_num [drag_frame, c4_cex_state, c4_cex_input, best_snap_pair, lengthSq, vsub,
      SNAP_DISTANCE, DRAG_START, thenTranslate, affineIdentity, applyAffine]
  refine ⟨rfl, by norm_num [lengthSq, vsub, c4_cex_input, c4_cex_state, DRAG_START],
    ?_, by rw [hdf]⟩
  rw [hdf]
  intro h
  have := congrArg (fun l => (l.getD 0 affineIdentity).a4) h
  norm_num [c4_cex_state, affineIdentity] at this
